import Mathlib

/-!
Verification of the call-graph core of `CodeChecker.py` (call-graph
construction from a clang AST, per-unit merging, leaf normalization, root
detection and tree rendering).  The Python source is shallowly embedded:
the clang cursor tree becomes the inductive `Ast`, the `defaultdict(list)`
call graph becomes an insertion-ordered association list `Graph`, and the
`__main__` driver loops become explicit folds.  The renderer, which recurses
on graph edges with no cycle guard in the source, is embedded with an
explicit recursion-depth budget (`fuel`); a result of `none` means the
recursion does not complete within the given depth, for any depth.
-/

/-- Cursor kinds the source discriminates on (`clang.cindex.CursorKind`);
all other kinds are collapsed into `other`, which the source treats
uniformly (no branch matches them). -/
inductive CursorKind where
  | functionDecl
  | cxxMethod
  | callExpr
  | memberRefExpr
  | other
deriving DecidableEq, Repr, BEq

/-- One clang cursor: kind, `spelling`, `semantic_parent.spelling`,
`type.spelling`, `location.file` (`none` when the cursor has no file), and
the ordered `get_children()` list. -/
inductive Ast where
  | mk : CursorKind → String → String → String → Option String → List Ast → Ast
deriving Repr

def Ast.kind : Ast → CursorKind
  | .mk k _ _ _ _ _ => k

def Ast.spelling : Ast → String
  | .mk _ s _ _ _ _ => s

def Ast.parentSpelling : Ast → String
  | .mk _ _ p _ _ _ => p

def Ast.typeSpelling : Ast → String
  | .mk _ _ _ t _ _ => t

def Ast.file : Ast → Option String
  | .mk _ _ _ _ f _ => f

def Ast.children : Ast → List Ast
  | .mk _ _ _ _ _ cs => cs

/-- Character-list version of Python's `str.startswith`. -/
def startsWithL : List Char → List Char → Bool
  | _, [] => true
  | [], _ :: _ => false
  | c :: cs, d :: ds => c = d && startsWithL cs ds

/-- Character-list version of Python's `in` substring test. -/
def containsL : List Char → List Char → Bool
  | [], pat => startsWithL [] pat
  | c :: rest, pat => startsWithL (c :: rest) pat || containsL rest pat

/-- Source `is_system_header` (lines 98-103): a cursor is filtered when its
location has no file, or the file name starts with `/usr/include` or
`/usr/lib`, or contains `/lib/gcc`. -/
def is_system_header (c : Ast) : Bool :=
  match c.file with
  | none => true
  | some name =>
    startsWithL name.data "/usr/include".data || startsWithL name.data "/usr/lib".data
      || containsL name.data "/lib/gcc".data

/-- The global/per-unit call graph: `defaultdict(list)` keyed by function
identity, with insertion order preserved (it drives print order).  A callee
entry `none` is the Python `None` leaf marker. -/
abbrev Graph : Type := List (String × List (Option String))

/-- Plain dictionary lookup (`k in d` / `d[k]` after a membership check). -/
def lookupG : Graph → String → Option (List (Option String))
  | [], _ => none
  | (k, vs) :: rest, f => if k = f then some vs else lookupG rest f

/-- Read of `d[k]` where a missing key behaves as the empty list (the value a
fresh `defaultdict(list)` cell would hold). -/
def edgesOf (g : Graph) (f : String) : List (Option String) :=
  (lookupG g f).getD []

/-- Python `k in d`. -/
def memG (g : Graph) (f : String) : Bool :=
  (lookupG g f).isSome

/-- Python `defaultdict.__getitem__`: returns the stored list, materializing
an empty entry (at the end, preserving insertion order) when the key is
missing.  The second component is the possibly-extended dictionary. -/
def dget (g : Graph) (f : String) : List (Option String) × Graph :=
  match lookupG g f with
  | some vs => (vs, g)
  | none => ([], g ++ [(f, [])])

/-- Embeds `d[k].append(v)` on a `defaultdict(list)`: appends to the existing
entry or creates the key with a one-element list. -/
def appendEdge : Graph → String → Option String → Graph
  | [], f, v => [(f, [v])]
  | (k, vs) :: rest, f, v =>
    if k = f then (k, vs ++ [v]) :: rest else (k, vs) :: appendEdge rest f v

/-- Embeds `d[k] = vs`: overwrite in place, or insert at the end when missing. -/
def setEntry : Graph → String → List (Option String) → Graph
  | [], f, vs => [(f, vs)]
  | (k, ws) :: rest, f, vs =>
    if k = f then (k, vs) :: rest else (k, ws) :: setEntry rest f vs

/-- Python `set.add` on an insertion-ordered set of function identities. -/
def addFunc (l : List String) (f : String) : List String :=
  if f ∈ l then l else l ++ [f]

/-- The pair of accumulators threaded through `build_call_graph`:
`call_graph` and `all_functions`. -/
structure BuildState where
  call_graph : Graph
  all_functions : List String
deriving Repr

/-- Embeds `all_functions.add(current_func)` guarded by Python truthiness of the
context string (source line 120-121). -/
def regFunc (st : BuildState) (cf : String) : BuildState :=
  { st with all_functions := addFunc st.all_functions cf }

/-- The `for gc in child.get_children(): ... break / else:` block of
`build_call_graph` (lines 130-139): scan the call expression's children for
the first `MEMBER_REF_EXPR`; on finding one, produce one name
`cxx.type.spelling ++ "::" ++ gc.spelling` per child `cxx` of that
member-reference and stop (`break`); `none` means the scan fell through to
the `else` clause. -/
def member_ref_edges : List Ast → Option (List String)
  | [] => none
  | gc :: rest =>
    if gc.kind = CursorKind.memberRefExpr then
      some (gc.children.map (fun cxx => cxx.typeSpelling ++ "::" ++ gc.spelling))
    else member_ref_edges rest

/-- Names appended for one `CALL_EXPR` child: the member-reference names when
a member-reference child exists, otherwise the call expression's spelling. -/
def call_expr_edges (child : Ast) : List String :=
  match member_ref_edges child.children with
  | some es => es
  | none => [child.spelling]

/-- The `call_graph[current_func].append(...)` calls made for one
`CALL_EXPR` child, in order. -/
def recordEdges (st : BuildState) (cf : String) (child : Ast) : BuildState :=
  { st with call_graph :=
      (call_expr_edges child).foldl (fun g e => appendEdge g cf (some e)) st.call_graph }

mutual
/-- Source `build_call_graph` (lines 105-143).  The source's outer guard
`node.kind == FUNCTION_DECL or clang.cindex.CursorKind.CXX_METHOD` is always
truthy (the second operand is a non-empty enum object), so its block runs at
every node: the context is reassigned by the inner `if/elif/else` kind
dispatch and the (possibly unchanged) context is re-added to
`all_functions` whenever it is truthy.  The empty string stands for the
falsy context (`None` initially, and Python treats `""` the same way in
every use the source makes of `current_func`). -/
def build_call_graph : Ast → String → BuildState → BuildState
  | .mk k s p _ _ cs, current_func, st =>
    let cf :=
      if k = CursorKind.cxxMethod then p ++ "::" ++ s
      else if k = CursorKind.functionDecl then s
      else current_func
    let st1 := if cf ≠ "" then regFunc st cf else st
    build_children cs cf st1

/-- The `for child in node.get_children():` loop (lines 124-141): skip
system-header children outright (`continue`), append the edges of tracked
`CALL_EXPR` children, then recurse into the child with the current context. -/
def build_children : List Ast → String → BuildState → BuildState
  | [], _, st => st
  | c :: rest, cf, st =>
    if is_system_header c then build_children rest cf st
    else
      let st1 := if cf ≠ "" ∧ c.kind = CursorKind.callExpr then recordEdges st cf c else st
      build_children rest cf (build_call_graph c cf st1)
end

mutual
/-- Rendition of §4.1 of the specification, written from its words for
comparison with the source: the free-function/method dispatch is an
exclusive branch on the node kind, the context is updated only at
declaration nodes, and only there is the updated context (a non-empty
identity) registered into the function set; every other kind leaves both
the context and the function set untouched. -/
def build_call_graph_spec : Ast → String → BuildState → BuildState
  | .mk k s p _ _ cs, current_func, st =>
    match k with
    | CursorKind.cxxMethod =>
      let cf := p ++ "::" ++ s
      let st1 := if cf ≠ "" then regFunc st cf else st
      build_children_spec cs cf st1
    | CursorKind.functionDecl =>
      let cf := s
      let st1 := if cf ≠ "" then regFunc st cf else st
      build_children_spec cs cf st1
    | _ => build_children_spec cs current_func st

/-- Child loop of the specification rendition; edge recording and
system-header filtering are as in the source. -/
def build_children_spec : List Ast → String → BuildState → BuildState
  | [], _, st => st
  | c :: rest, cf, st =>
    if is_system_header c then build_children_spec rest cf st
    else
      let st1 := if cf ≠ "" ∧ c.kind = CursorKind.callExpr then recordEdges st cf c else st
      build_children_spec rest cf (build_call_graph_spec c cf st1)
end

/-- The `all_called` set of `find_root_functions` (lines 146-148), as the
concatenation of every value list of the graph. -/
def all_called (g : Graph) : List (Option String) :=
  g.foldl (fun acc p => acc ++ p.2) []

/-- Source `find_root_functions` (lines 145-150): the keys of the call graph
that occur in no value list. -/
def find_root_functions (g : Graph) : List String :=
  (g.map Prod.fst).filter (fun f => !(decide (some f ∈ all_called g)))

/-- A run of `n` spaces, as printed by the `for i in range(lenght)` loop. -/
def spaces (n : Nat) : String :=
  String.mk (List.replicate n ' ')

/-- Source `print_call_graph` (lines 152-168), with the console output
captured as a string and the `defaultdict` threaded through.  The source
recurses on graph edges with no visited set, so termination is not
guaranteed; `fuel` bounds the recursion depth and a first component of
`none` means the traversal did not complete within that depth.  Per callee
the source prints, in order: a newline, `lenght` spaces and a `|` when the
entry has more than one callee; then `-> name()` (or `-> None` for the
`None` leaf marker); then the output of the recursive call on the callee. -/
def print_call_graph : Nat → Graph → Option String → Nat → Option String × Graph
  | 0, g, _, _ => (none, g)
  | _ + 1, g, none, _ => (some "", g)
  | fuel + 1, g, some start_func, lenght =>
    let lenght := lenght + start_func.length + 2
    if memG g start_func then
      let p := dget g start_func
      let n := p.1.length
      p.1.foldl
        (fun acc callee =>
          match acc with
          | (none, ga) => (none, ga)
          | (some out, ga) =>
            let bar := if 1 < n then "\n" ++ spaces lenght ++ "|" else ""
            let arrow :=
              match callee with
              | none => "-> None"
              | some c => "-> " ++ c ++ "()"
            match print_call_graph fuel ga callee lenght with
            | (none, g2) => (none, g2)
            | (some sub, g2) => (some (out ++ bar ++ arrow ++ sub), g2))
        (some "", p.2)
    else (some "", g)

/-- The callee loop of `print_call_graph`, factored out for reasoning;
`print_call_graph` at positive fuel unfolds to it (see
`print_call_graph_succ_some`). -/
def print_loop (fuel n lenght : Nat) (acc : Option String × Graph)
    (vs : List (Option String)) : Option String × Graph :=
  vs.foldl
    (fun acc callee =>
      match acc with
      | (none, ga) => (none, ga)
      | (some out, ga) =>
        let bar := if 1 < n then "\n" ++ spaces lenght ++ "|" else ""
        let arrow :=
          match callee with
          | none => "-> None"
          | some c => "-> " ++ c ++ "()"
        match print_call_graph fuel ga callee lenght with
        | (none, g2) => (none, g2)
        | (some sub, g2) => (some (out ++ bar ++ arrow ++ sub), g2))
    acc

/-- Output block of the `__main__` render loop for one root (lines 228-229):
`root()` followed by the recursive rendering of its callees.  The driver
prints a separating newline before each block. -/
def render_root (fuel : Nat) (g : Graph) (root : String) : Option String :=
  match print_call_graph fuel g (some root) 0 with
  | (some s, _) => some (root ++ "()" ++ s)
  | (none, _) => none

/-- The merge of one unit's results into the global graph (lines 199-201):
`global_call_graph[func] = call_graph[func]` for every declared function of
the unit — overwrite, not append. -/
def merge_unit (global_g : Graph) (unit_graph : Graph) (funcs : List String) : Graph :=
  funcs.foldl (fun g f => setEntry g f (edgesOf unit_graph f)) global_g

/-- The per-unit accumulation of the `__main__` loop restricted to
successfully parsed units: merge each unit's call graph (last writer wins)
and union its function set (lines 199-202). -/
def processUnits (units : List (Graph × List String)) : Graph × List String :=
  units.foldl (fun acc u => (merge_unit acc.1 u.1 u.2, u.2.foldl addFunc acc.2)) ([], [])

/-- Embeds `build_call_graph(tu.cursor)` for one translation unit: the source calls
it with `current_func=None` and fresh accumulators (line 198). -/
def run_unit (ast : Ast) : Graph × List String :=
  let st := build_call_graph ast "" ⟨[], []⟩
  (st.call_graph, st.all_functions)

/-- One iteration of the `__main__` file loop (lines 194-204): a parse
failure (`TranslationUnitLoadError`) appends an `Error parsing file: msg`
report and leaves the accumulators alone; a parsed unit is built and merged.
State is `(global_call_graph, all_functions, reported errors)`. -/
def pstep (acc : Graph × List String × List String) (fu : String × Except String Ast) :
    Graph × List String × List String :=
  match fu.2 with
  | Except.error e => (acc.1, acc.2.1, acc.2.2 ++ ["Error parsing " ++ fu.1 ++ ": " ++ e])
  | Except.ok ast =>
    let r := run_unit ast
    (merge_unit acc.1 r.1 r.2, r.2.foldl addFunc acc.2.1, acc.2.2)

/-- The whole `__main__` file loop over a list of `(file, parse result)`
pairs. -/
def processFiles (files : List (String × Except String Ast)) :
    Graph × List String × List String :=
  files.foldl pstep ([], [], [])

/-- Lexicographic code-point comparison of character lists, the order Python
`sorted` uses on strings. -/
def leL : List Char → List Char → Bool
  | [], _ => true
  | _ :: _, [] => false
  | c :: cs, d :: ds => if c = d then leL cs ds else decide (c < d)

/-- Lexicographic `<=` on strings by code points. -/
def strLe (a b : String) : Bool :=
  leL a.data b.data

/-- Insertion of a string into an ascending list, for Python `sorted`. -/
def insertSorted (x : String) : List String → List String
  | [] => [x]
  | y :: ys => if strLe x y then x :: y :: ys else y :: insertSorted x ys

/-- Python `sorted(all_functions)` (line 206). -/
def sortStrs (l : List String) : List String :=
  l.foldr insertSorted []

/-- One iteration of the normalization loop (lines 213-216): read
`global_call_graph[func]` through the `defaultdict` (materializing a missing
entry) and append `None` when the list is empty. -/
def normalize_step (g : Graph) (f : String) : Graph :=
  let p := dget g f
  if p.1.length = 0 then setEntry p.2 f (p.1 ++ [none]) else p.2

/-- The whole normalization loop over the sorted function list. -/
def normalize_leaves (g : Graph) (fs : List String) : Graph :=
  fs.foldl normalize_step g

/-- Merge all units and normalize leaves over the sorted function set, as
the `__main__` driver does between parsing and root detection.  Returns the
normalized global graph and the function set. -/
def pipeline (units : List (Graph × List String)) : Graph × List String :=
  (normalize_leaves (processUnits units).1 (sortStrs (processUnits units).2),
   (processUnits units).2)

/-- The two-entry mutually recursive call graph `A -> B -> A` of the
cycle-termination scenario. -/
def cycle_graph : Graph := [("A", [some "B"]), ("B", [some "A"])]

/-- Translation-unit fixture of the §8 scenario: `main` calls `helper`,
`helper` calls `Widget::run` through a member reference on an object of
static type `Widget`, and `Widget::run` is a method with semantic parent
`Widget` and no calls. -/
def fixture_ast : Ast :=
  Ast.mk .other "tu" "" "" (some "a.cpp")
    [ Ast.mk .functionDecl "main" "" "" (some "a.cpp")
        [ Ast.mk .callExpr "helper" "" "" (some "a.cpp") [] ],
      Ast.mk .functionDecl "helper" "" "" (some "a.cpp")
        [ Ast.mk .callExpr "run" "" "" (some "a.cpp")
            [ Ast.mk .memberRefExpr "run" "" "" (some "a.cpp")
                [ Ast.mk .other "w" "" "Widget" (some "a.cpp") [] ] ] ],
      Ast.mk .cxxMethod "run" "Widget" "" (some "a.cpp") [] ]

/-- Call expression whose first member-reference child has two children: the
source appends one edge per such child. -/
def multi_member_ast : Ast :=
  Ast.mk .functionDecl "f" "" "" (some "a.cpp")
    [ Ast.mk .callExpr "call" "" "" (some "a.cpp")
        [ Ast.mk .memberRefExpr "m" "" "" (some "a.cpp")
            [ Ast.mk .other "o1" "" "T1" (some "a.cpp") [],
              Ast.mk .other "o2" "" "T2" (some "a.cpp") [] ] ] ]

lemma mem_addFunc {l : List String} {f k : String} : k ∈ addFunc l f ↔ k ∈ l ∨ k = f := by
  unfold addFunc
  by_cases h : f ∈ l
  · rw [if_pos h]
    constructor
    · exact fun hk => Or.inl hk
    · rintro (hk | rfl)
      · exact hk
      · exact h
  · rw [if_neg h]
    simp [List.mem_append]

lemma addFunc_of_mem {l : List String} {f : String} (h : f ∈ l) : addFunc l f = l := by
  unfold addFunc
  rw [if_pos h]

lemma mem_foldl_addFunc :
    ∀ (l : List String) (acc : List String) (k : String),
      k ∈ l.foldl addFunc acc ↔ k ∈ acc ∨ k ∈ l := by
  intro l
  induction l with
  | nil => simp
  | cons x xs ih =>
    intro acc k
    rw [List.foldl_cons, ih, mem_addFunc]
    simp only [List.mem_cons]
    tauto

lemma lookup_setEntry :
    ∀ (g : Graph) (f : String) (vs : List (Option String)) (k : String),
      lookupG (setEntry g f vs) k = if k = f then some vs else lookupG g k := by
  intro g f vs
  induction g with
  | nil =>
    intro k
    by_cases h : k = f
    · subst h
      simp [setEntry, lookupG]
    · have h2 : ¬f = k := fun hh => h hh.symm
      simp [setEntry, lookupG, h, h2]
  | cons p rest ih =>
    intro k
    obtain ⟨k', ws⟩ := p
    by_cases h1 : k' = f
    · subst h1
      by_cases h2 : k' = k
      · subst h2
        simp [setEntry, lookupG]
      · have h3 : ¬k = k' := fun hh => h2 hh.symm
        simp [setEntry, lookupG, h2, h3]
    · by_cases h2 : k' = k
      · subst h2
        simp [setEntry, lookupG, h1]
      · simp [setEntry, lookupG, h1, h2, ih]

lemma lookup_appendEdge :
    ∀ (g : Graph) (f : String) (v : Option String) (k : String),
      lookupG (appendEdge g f v) k =
        if k = f then some (edgesOf g f ++ [v]) else lookupG g k := by
  intro g f v
  induction g with
  | nil =>
    intro k
    by_cases h : k = f
    · subst h
      simp [appendEdge, lookupG, edgesOf]
    · have h2 : ¬f = k := fun hh => h hh.symm
      simp [appendEdge, lookupG, edgesOf, h, h2]
  | cons p rest ih =>
    intro k
    obtain ⟨k', ws⟩ := p
    by_cases h1 : k' = f
    · subst h1
      by_cases h2 : k' = k
      · subst h2
        simp [appendEdge, lookupG, edgesOf]
      · have h3 : ¬k = k' := fun hh => h2 hh.symm
        simp [appendEdge, lookupG, edgesOf, h2, h3]
    · by_cases h2 : k' = k
      · subst h2
        simp [appendEdge, lookupG, edgesOf, h1]
      · simp [appendEdge, lookupG, edgesOf, h1, h2, ih]

lemma lookup_append_of_none {g g2 : Graph} {k : String} (h : lookupG g k = none) :
    lookupG (g ++ g2) k = lookupG g2 k := by
  induction g with
  | nil => simp
  | cons p rest ih =>
    obtain ⟨k', ws⟩ := p
    by_cases h2 : k' = k
    · subst h2
      simp [lookupG] at h
    · simp [lookupG, h2] at h ⊢
      exact ih h

lemma dget_of_mem {g : Graph} {f : String} (h : memG g f = true) :
    dget g f = (edgesOf g f, g) := by
  unfold memG at h
  unfold dget edgesOf
  cases hl : lookupG g f with
  | none => rw [hl] at h; simp at h
  | some vs => simp

lemma dget_of_not_mem {g : Graph} {f : String} (h : memG g f = false) :
    dget g f = ([], g ++ [(f, [])]) := by
  unfold memG at h
  unfold dget
  cases hl : lookupG g f with
  | none => simp
  | some vs => rw [hl] at h; simp at h

lemma mem_keys_iff :
    ∀ (g : Graph) (k : String), k ∈ g.map Prod.fst ↔ (lookupG g k).isSome = true := by
  intro g k
  induction g with
  | nil => simp [lookupG]
  | cons p rest ih =>
    obtain ⟨k', ws⟩ := p
    by_cases h : k' = k
    · subst h
      simp [lookupG]
    · have h2 : ¬k = k' := fun hh => h hh.symm
      simp [lookupG, h, h2, ih]

lemma all_called_foldl :
    ∀ (g : Graph) (acc : List (Option String)),
      g.foldl (fun a p => a ++ p.2) acc = acc ++ g.foldl (fun a p => a ++ p.2) [] := by
  intro g
  induction g with
  | nil => simp
  | cons p rest ih =>
    intro acc
    rw [List.foldl_cons, List.foldl_cons, ih (acc ++ p.2), ih ([] ++ p.2)]
    simp [List.append_assoc]

lemma mem_all_called {g : Graph} {v : Option String} :
    v ∈ all_called g ↔ ∃ e ∈ g, v ∈ e.2 := by
  induction g with
  | nil => simp [all_called]
  | cons p rest ih =>
    unfold all_called at ih ⊢
    rw [List.foldl_cons, all_called_foldl]
    simp only [List.nil_append, List.mem_append, ih, List.mem_cons]
    constructor
    · rintro (hv | ⟨e, he, hv⟩)
      · exact ⟨p, Or.inl rfl, hv⟩
      · exact ⟨e, Or.inr he, hv⟩
    · rintro ⟨e, (rfl | he), hv⟩
      · exact Or.inl hv
      · exact Or.inr ⟨e, he, hv⟩

lemma mem_roots {g : Graph} {f : String} :
    f ∈ find_root_functions g ↔ f ∈ g.map Prod.fst ∧ ¬some f ∈ all_called g := by
  simp [find_root_functions, List.mem_filter]

lemma mem_insertSorted :
    ∀ (l : List String) (x k : String), k ∈ insertSorted x l ↔ k = x ∨ k ∈ l := by
  intro l x
  induction l with
  | nil => simp [insertSorted]
  | cons y ys ih =>
    intro k
    unfold insertSorted
    by_cases h : strLe x y = true
    · simp [h]
    · rw [if_neg h]
      simp only [List.mem_cons, ih]
      tauto

lemma mem_sortStrs {l : List String} {k : String} : k ∈ sortStrs l ↔ k ∈ l := by
  induction l with
  | nil => simp [sortStrs]
  | cons x xs ih =>
    unfold sortStrs at ih ⊢
    rw [List.foldr_cons, mem_insertSorted]
    simp [ih]

lemma lookup_append_single {g : Graph} {f k : String} {vs : List (Option String)}
    (h : ¬k = f) : lookupG (g ++ [(f, vs)]) k = lookupG g k := by
  induction g with
  | nil =>
    have h2 : ¬f = k := fun hh => h hh.symm
    simp [lookupG, h2]
  | cons p rest ih =>
    obtain ⟨k', ws⟩ := p
    by_cases h2 : k' = k <;> simp [lookupG, h2, ih]

lemma lookup_normalize_step (g : Graph) (f k : String) :
    lookupG (normalize_step g f) k =
      if k = f then some (if edgesOf g f = [] then [none] else edgesOf g f)
      else lookupG g k := by
  cases hl : lookupG g f with
  | none =>
    have he : edgesOf g f = [] := by unfold edgesOf; rw [hl]; rfl
    have hstep : normalize_step g f = setEntry (g ++ [(f, [])]) f [none] := by
      unfold normalize_step dget
      rw [hl]
      rfl
    rw [hstep, lookup_setEntry, he]
    by_cases hk : k = f
    · simp [hk]
    · rw [if_neg hk, if_neg hk]
      exact lookup_append_single hk
  | some vs =>
    have he : edgesOf g f = vs := by unfold edgesOf; rw [hl]; rfl
    by_cases hz : vs = []
    · subst hz
      have hstep : normalize_step g f = setEntry g f [none] := by
        unfold normalize_step dget
        rw [hl]
        rfl
      rw [hstep, lookup_setEntry, he]
      simp
    · have hstep : normalize_step g f = g := by
        unfold normalize_step dget
        rw [hl]
        simp [hz]
      rw [hstep, he]
      by_cases hk : k = f
      · subst hk
        rw [if_pos rfl, if_neg hz, hl]
      · rw [if_neg hk]

lemma lookup_normalize_leaves :
    ∀ (fs : List String) (g : Graph) (k : String),
      lookupG (normalize_leaves g fs) k =
        if k ∈ fs then some (if edgesOf g k = [] then [none] else edgesOf g k)
        else lookupG g k := by
  intro fs
  induction fs with
  | nil => simp [normalize_leaves]
  | cons f rest ih =>
    intro g k
    have hstep : normalize_leaves g (f :: rest) = normalize_leaves (normalize_step g f) rest := by
      unfold normalize_leaves
      rw [List.foldl_cons]
    rw [hstep, ih]
    have hek : edgesOf (normalize_step g f) k =
        if k = f then (if edgesOf g f = [] then [none] else edgesOf g f) else edgesOf g k := by
      unfold edgesOf
      rw [lookup_normalize_step]
      by_cases hk : k = f
      · simp [hk, edgesOf]
      · rw [if_neg hk, if_neg hk]
    by_cases hkf : k = f
    · subst hkf
      have hek2 : edgesOf (normalize_step g k) k =
          if edgesOf g k = [] then [none] else edgesOf g k := by
        rw [hek, if_pos rfl]
      have hne : edgesOf (normalize_step g k) k ≠ [] := by
        rw [hek2]
        by_cases hz : edgesOf g k = []
        · rw [if_pos hz]
          simp
        · rw [if_neg hz]
          exact hz
      by_cases hkr : k ∈ rest
      · rw [if_pos hkr, if_neg hne, hek2, if_pos (List.mem_cons_self k rest)]
      · rw [if_neg hkr, lookup_normalize_step, if_pos rfl, if_pos (List.mem_cons_self k rest)]
    · have hmem : k ∈ f :: rest ↔ k ∈ rest := by simp [List.mem_cons, hkf]
      by_cases hkr : k ∈ rest
      · rw [if_pos hkr, if_pos (hmem.mpr hkr), hek, if_neg hkf]
      · rw [if_neg hkr, if_neg (fun hh => hkr (hmem.mp hh)), lookup_normalize_step, if_neg hkf]

lemma lookup_merge_unit :
    ∀ (fs : List String) (global_g unit_graph : Graph) (k : String),
      lookupG (merge_unit global_g unit_graph fs) k =
        if k ∈ fs then some (edgesOf unit_graph k) else lookupG global_g k := by
  intro fs
  induction fs with
  | nil => simp [merge_unit]
  | cons f rest ih =>
    intro G ug k
    have hstep : merge_unit G ug (f :: rest) =
        merge_unit (setEntry G f (edgesOf ug f)) ug rest := by
      unfold merge_unit
      rw [List.foldl_cons]
    rw [hstep, ih, lookup_setEntry]
    by_cases hkf : k = f
    · subst hkf
      by_cases hkr : k ∈ rest
      · rw [if_pos hkr, if_pos (List.mem_cons_self k rest)]
      · rw [if_neg hkr, if_pos rfl, if_pos (List.mem_cons_self k rest)]
    · have hmem : k ∈ f :: rest ↔ k ∈ rest := by simp [List.mem_cons, hkf]
      by_cases hkr : k ∈ rest
      · rw [if_pos hkr, if_pos (hmem.mpr hkr)]
      · rw [if_neg hkr, if_neg hkf, if_neg (fun hh => hkr (hmem.mp hh))]

lemma foldl_preserves {α β : Type _} (P : β → Prop) (f : β → α → β)
    (hstep : ∀ b a, P b → P (f b a)) :
    ∀ (l : List α) (b : β), P b → P (l.foldl f b) := by
  intro l
  induction l with
  | nil => exact fun b hb => hb
  | cons x xs ih => exact fun b hb => ih (f b x) (hstep b x hb)

lemma processUnits_keys_subset (units : List (Graph × List String)) :
    ∀ k, (lookupG (processUnits units).1 k).isSome = true → k ∈ (processUnits units).2 := by
  have h := foldl_preserves
    (fun acc : Graph × List String => ∀ k, (lookupG acc.1 k).isSome = true → k ∈ acc.2)
    (fun acc u => (merge_unit acc.1 u.1 u.2, u.2.foldl addFunc acc.2))
    (by
      rintro ⟨G, fs⟩ u hb k hk
      simp only at hk ⊢
      rw [lookup_merge_unit] at hk
      by_cases hu : k ∈ u.2
      · exact (mem_foldl_addFunc u.2 fs k).mpr (Or.inr hu)
      · rw [if_neg hu] at hk
        exact (mem_foldl_addFunc u.2 fs k).mpr (Or.inl (hb k hk)))
    units ([], []) (by intro k hk; simp [lookupG] at hk)
  exact h

/-- C2: applied to the merged, leaf-normalized global graph, the root finder
returns exactly the members of FunctionSet that occur as a callee in no edge
list of that graph.  The quantification is over arbitrary per-unit build
results, hence over every AST. -/
theorem roots_eq_uncalled_functions (units : List (Graph × List String)) (f : String) :
    f ∈ find_root_functions (pipeline units).1 ↔
      f ∈ (pipeline units).2 ∧ ∀ e ∈ (pipeline units).1, some f ∉ e.2 := by
  have hpipe1 : (pipeline units).1 =
      normalize_leaves (processUnits units).1 (sortStrs (processUnits units).2) := rfl
  have hpipe2 : (pipeline units).2 = (processUnits units).2 := rfl
  rw [mem_roots, hpipe1, hpipe2]
  have hkeys : f ∈ (normalize_leaves (processUnits units).1
      (sortStrs (processUnits units).2)).map Prod.fst ↔ f ∈ (processUnits units).2 := by
    rw [mem_keys_iff, lookup_normalize_leaves]
    by_cases hf : f ∈ (processUnits units).2
    · rw [if_pos (mem_sortStrs.mpr hf)]
      simp [hf]
    · rw [if_neg (fun hh => hf (mem_sortStrs.mp hh))]
      constructor
      · intro hk
        exact absurd (processUnits_keys_subset units f hk) hf
      · intro hk
        exact absurd hk hf
  rw [hkeys]
  constructor
  · rintro ⟨h1, h2⟩
    refine ⟨h1, fun e he hv => h2 (mem_all_called.mpr ⟨e, he, hv⟩)⟩
  · rintro ⟨h1, h2⟩
    refine ⟨h1, fun hv => ?_⟩
    obtain ⟨e, he, hv2⟩ := mem_all_called.mp hv
    exact h2 e he hv2

/-- C4: when two units both declare `f`, the merged global graph holds the
second unit's edge list for `f` (last-writer-wins overwrite, not an append),
and the merged FunctionSet is the set union of the units' function sets. -/
theorem merge_last_writer_wins (u1 u2 : Graph × List String) (f : String) (hf : f ∈ u2.2) :
    edgesOf (processUnits [u1, u2]).1 f = edgesOf u2.1 f
    ∧ ∀ k, k ∈ (processUnits [u1, u2]).2 ↔ k ∈ u1.2 ∨ k ∈ u2.2 := by
  constructor
  · have h1 : (processUnits [u1, u2]).1 =
        merge_unit (merge_unit [] u1.1 u1.2) u2.1 u2.2 := by
      simp [processUnits]
    rw [h1]
    unfold edgesOf
    rw [lookup_merge_unit, if_pos hf]
    simp [edgesOf]
  · intro k
    have h2 : (processUnits [u1, u2]).2 = u2.2.foldl addFunc (u1.2.foldl addFunc []) := by
      simp [processUnits]
    rw [h2, mem_foldl_addFunc, mem_foldl_addFunc]
    simp [or_comm]

/-- Witness for C4 at the two-unit instance of the claim: unit one gives `f`
the edge list `[x]`, unit two `[y]`; the merged graph maps `f` to `[y]`. -/
theorem merge_last_writer_wins_witness :
    edgesOf (processUnits [([("f", [some "x"])], ["f"]), ([("f", [some "y"])], ["f"])]).1 "f"
      = [some "y"] := by
  have h := merge_last_writer_wins ([("f", [some "x"])], ["f"]) ([("f", [some "y"])], ["f"])
    "f" (by decide)
  exact h.1.trans (by decide)

/-- C5: after the normalization loop every FunctionSet member with an empty
recorded edge list maps to exactly `[none]`, every member with a non-empty
list keeps it unchanged, and hence every member's entry is non-empty. -/
theorem normalization_gives_renderable_leaves (g : Graph) (fs : List String) (f : String)
    (hf : f ∈ fs) :
    (edgesOf g f = [] → edgesOf (normalize_leaves g (sortStrs fs)) f = [none])
    ∧ (edgesOf g f ≠ [] → edgesOf (normalize_leaves g (sortStrs fs)) f = edgesOf g f)
    ∧ edgesOf (normalize_leaves g (sortStrs fs)) f ≠ [] := by
  have hm : f ∈ sortStrs fs := mem_sortStrs.mpr hf
  have he : edgesOf (normalize_leaves g (sortStrs fs)) f =
      if edgesOf g f = [] then [none] else edgesOf g f := by
    unfold edgesOf
    rw [lookup_normalize_leaves, if_pos hm]
    rfl
  refine ⟨fun hz => ?_, fun hz => ?_, ?_⟩
  · rw [he, if_pos hz]
  · rw [he, if_neg hz]
  · rw [he]
    by_cases hz : edgesOf g f = []
    · rw [if_pos hz]
      simp
    · rw [if_neg hz]
      exact hz

/-- Witness for C5: a function set member with no recorded callees is
normalized to the `[none]` entry. -/
theorem normalization_gives_renderable_leaves_witness :
    edgesOf (normalize_leaves [("a", [some "b"])] (sortStrs ["a", "c"])) "c" = [none] := by
  exact (normalization_gives_renderable_leaves [("a", [some "b"])] ["a", "c"] "c"
    (by decide)).1 (by decide)

lemma print_call_graph_succ_some (fuel : Nat) (g : Graph) (s : String) (lenght : Nat) :
    print_call_graph (fuel + 1) g (some s) lenght =
      if memG g s then
        print_loop fuel (dget g s).1.length (lenght + s.length + 2)
          (some "", (dget g s).2) (dget g s).1
      else (some "", g) := rfl

lemma print_loop_step (fuel n lenght : Nat) (out : String) (ga : Graph)
    (callee : Option String) (rest : List (Option String)) :
    print_loop fuel n lenght (some out, ga) (callee :: rest) =
      print_loop fuel n lenght
        (match print_call_graph fuel ga callee lenght with
         | (none, g2) => (none, g2)
         | (some sub, g2) =>
           (some (out ++ (if 1 < n then "\n" ++ spaces lenght ++ "|" else "")
              ++ (match callee with
                  | none => "-> None"
                  | some c => "-> " ++ c ++ "()") ++ sub), g2)) rest := rfl

lemma print_loop_none_step (fuel n lenght : Nat) (ga : Graph)
    (callee : Option String) (rest : List (Option String)) :
    print_loop fuel n lenght (none, ga) (callee :: rest) =
      print_loop fuel n lenght (none, ga) rest := rfl

lemma print_loop_snd (fuel n lenght : Nat)
    (H : ∀ g s l, (print_call_graph fuel g s l).2 = g) :
    ∀ (vs : List (Option String)) (acc : Option String × Graph),
      (print_loop fuel n lenght acc vs).2 = acc.2 := by
  intro vs
  induction vs with
  | nil => intro acc; rfl
  | cons callee rest ih =>
    intro acc
    obtain ⟨o, ga⟩ := acc
    cases o with
    | none =>
      rw [print_loop_none_step, ih]
    | some out =>
      rw [print_loop_step]
      have hsnd := H ga callee lenght
      cases hres : print_call_graph fuel ga callee lenght with
      | mk ro rg =>
        rw [hres] at hsnd
        have hrg : rg = ga := hsnd
        subst hrg
        cases ro with
        | none => rw [ih]
        | some sub => rw [ih]

lemma print_call_graph_snd :
    ∀ (fuel : Nat) (g : Graph) (s : Option String) (lenght : Nat),
      (print_call_graph fuel g s lenght).2 = g := by
  intro fuel
  induction fuel with
  | zero => intro g s l; rfl
  | succ fuel ih =>
    intro g s l
    cases s with
    | none => rfl
    | some sf =>
      rw [print_call_graph_succ_some]
      by_cases hm : memG g sf = true
      · rw [if_pos hm, print_loop_snd fuel _ _ ih, dget_of_mem hm]
      · rw [if_neg hm]

/-- C9: rendering never mutates the call graph.  The embedding threads the
`defaultdict` through every read (`dget` would materialize a missing key),
and for every fuel, graph, start name and indentation the dictionary that
comes back is exactly the one that went in — the source only indexes the
dictionary behind an `in` check, so no entry is ever inserted. -/
theorem render_preserves_graph (fuel : Nat) (g : Graph) (start : Option String)
    (lenght : Nat) : (print_call_graph fuel g start lenght).2 = g :=
  print_call_graph_snd fuel g start lenght

lemma cycle_render_exhausts :
    ∀ (fuel lenght : Nat) (s : String), s = "A" ∨ s = "B" →
      (print_call_graph fuel cycle_graph (some s) lenght).1 = none := by
  intro fuel
  induction fuel with
  | zero => intro l s hs; rfl
  | succ fuel ih =>
    intro l s hs
    have hnext : ∃ t, edgesOf cycle_graph s = [some t] ∧ (t = "A" ∨ t = "B")
        ∧ memG cycle_graph s = true := by
      rcases hs with rfl | rfl
      · exact ⟨"B", by decide, Or.inr rfl, by decide⟩
      · exact ⟨"A", by decide, Or.inl rfl, by decide⟩
    obtain ⟨t, het, hts, hm⟩ := hnext
    rw [print_call_graph_succ_some, if_pos hm, dget_of_mem hm]
    simp only
    rw [het, print_loop_step]
    have hrec := ih (l + s.length + 2) t hts
    cases hres : print_call_graph fuel cycle_graph (some t) (l + s.length + 2) with
    | mk ro rg =>
      rw [hres] at hrec
      cases ro with
      | some o => simp at hrec
      | none => rfl

/-- C1: the source renderer has no cycle guard (the string `[recursive]`
occurs nowhere in the program): on the mutual-recursion graph `A -> B -> A`
the traversal started at `A` exhausts every finite recursion-depth budget,
i.e. it recurses A, B, A, B, ... without bound instead of terminating with
a `[recursive]` marker after the second visit of `A`. -/
theorem cycle_render_never_terminates (fuel lenght : Nat) :
    (print_call_graph fuel cycle_graph (some "A") lenght).1 = none :=
  cycle_render_exhausts fuel lenght "A" (Or.inl rfl)

/-- C7 counterexample: on the `main -> helper -> Widget::run` fixture the
rendered block for the root `main` is a single line ending in the explicit
`-> None` leaf marker, not the three newline-separated lines
`main()`, `-> helper()`, `-> Widget::run()` the claim states (with or
without a trailing newline). -/
theorem scenario_output_not_three_lines :
    render_root 20 (pipeline [run_unit fixture_ast]).1 "main"
      = some "main()-> helper()-> Widget::run()-> None"
    ∧ some "main()-> helper()-> Widget::run()-> None"
        ≠ some ("main()" ++ "\n" ++ "-> helper()" ++ "\n" ++ "-> Widget::run()")
    ∧ some "main()-> helper()-> Widget::run()-> None"
        ≠ some ("main()" ++ "\n" ++ "-> helper()" ++ "\n" ++ "-> Widget::run()" ++ "\n") :=
  ⟨by decide, by decide, by decide⟩

/-- C7 amended: FunctionSet and the root are as the claim states, but the
renderer prints single-callee chains inline on one line, each callee with a
`-> name()` arrow and the leaf with an explicit `-> None` marker: the block
rendered for `main` is the single line
`main()-> helper()-> Widget::run()-> None`. -/
theorem scenario_inline_render :
    (pipeline [run_unit fixture_ast]).2 = ["main", "helper", "Widget::run"]
    ∧ find_root_functions (pipeline [run_unit fixture_ast]).1 = ["main"]
    ∧ render_root 20 (pipeline [run_unit fixture_ast]).1 "main"
        = some "main()-> helper()-> Widget::run()-> None" :=
  ⟨by decide, by decide, by decide⟩

lemma pstep_error (acc : Graph × List String × List String) (name e : String) :
    pstep acc (name, Except.error e) =
      (acc.1, acc.2.1, acc.2.2 ++ ["Error parsing " ++ name ++ ": " ++ e]) := rfl

lemma foldl_pstep_gf :
    ∀ (files : List (String × Except String Ast)) (g : Graph) (fs lg : List String),
      ((files.foldl pstep (g, fs, lg)).1, (files.foldl pstep (g, fs, lg)).2.1)
        = ((files.foldl pstep (g, fs, [])).1, (files.foldl pstep (g, fs, [])).2.1) := by
  intro files
  induction files with
  | nil => intro g fs lg; rfl
  | cons fu rest ih =>
    intro g fs lg
    obtain ⟨name, res⟩ := fu
    cases res with
    | error e =>
      rw [List.foldl_cons, List.foldl_cons, pstep_error, pstep_error]
      rw [ih g fs (lg ++ ["Error parsing " ++ name ++ ": " ++ e]),
        ih g fs ([] ++ ["Error parsing " ++ name ++ ": " ++ e])]
    | ok ast =>
      rw [List.foldl_cons, List.foldl_cons]
      have h1 : pstep (g, fs, lg) (name, Except.ok ast) =
          (merge_unit g (run_unit ast).1 (run_unit ast).2,
            (run_unit ast).2.foldl addFunc fs, lg) := rfl
      have h2 : pstep (g, fs, []) (name, Except.ok ast) =
          (merge_unit g (run_unit ast).1 (run_unit ast).2,
            (run_unit ast).2.foldl addFunc fs, ([] : List String)) := rfl
      rw [h1, h2, ih _ _ lg]

lemma foldl_pstep_log_mem :
    ∀ (files : List (String × Except String Ast)) (g : Graph) (fs lg : List String)
      (m : String), m ∈ lg → m ∈ (files.foldl pstep (g, fs, lg)).2.2 := by
  intro files
  induction files with
  | nil => intro g fs lg m hm; exact hm
  | cons fu rest ih =>
    intro g fs lg m hm
    obtain ⟨name, res⟩ := fu
    cases res with
    | error e =>
      rw [List.foldl_cons, pstep_error]
      exact ih g fs _ m (List.mem_append_left _ hm)
    | ok ast =>
      rw [List.foldl_cons]
      exact ih _ _ lg m hm

/-- C8: a translation unit whose parse raises `TranslationUnitLoadError` is
reported as `Error parsing file: msg` and contributes nothing: the global
call graph and function set after the whole run equal those of the run with
that unit removed, and every other unit (before and after it) is still
processed. -/
theorem parse_failure_skips_unit (pre post : List (String × Except String Ast))
    (name msg : String) :
    (processFiles (pre ++ (name, Except.error msg) :: post)).1
        = (processFiles (pre ++ post)).1
    ∧ (processFiles (pre ++ (name, Except.error msg) :: post)).2.1
        = (processFiles (pre ++ post)).2.1
    ∧ ("Error parsing " ++ name ++ ": " ++ msg)
        ∈ (processFiles (pre ++ (name, Except.error msg) :: post)).2.2 := by
  unfold processFiles
  rw [List.foldl_append, List.foldl_append, List.foldl_cons]
  generalize pre.foldl pstep (([], [], []) : Graph × List String × List String) = A
  obtain ⟨G0, F0, L0⟩ := A
  rw [pstep_error]
  have h1 := foldl_pstep_gf post G0 F0
    (L0 ++ ["Error parsing " ++ name ++ ": " ++ msg])
  have h2 := foldl_pstep_gf post G0 F0 L0
  refine ⟨?_, ?_, ?_⟩
  · have := (congrArg Prod.fst h1).trans (congrArg Prod.fst h2).symm
    exact this
  · have := (congrArg Prod.snd h1).trans (congrArg Prod.snd h2).symm
    exact this
  · exact foldl_pstep_log_mem post G0 F0 _ _ (by simp)

lemma is_system_header_of_filtered {c : Ast}
    (h : c.file = none
      ∨ ∃ name, c.file = some name
          ∧ (startsWithL name.data "/usr/include".data = true
            ∨ startsWithL name.data "/usr/lib".data = true
            ∨ containsL name.data "/lib/gcc".data = true)) :
    is_system_header c = true := by
  unfold is_system_header
  rcases h with hf | ⟨name, hf, hcase⟩
  · rw [hf]
  · rw [hf]
    rcases hcase with h1 | h1 | h1 <;> simp [h1]

/-- C10: a child whose source location has no file, or whose file path
starts with `/usr/include` or `/usr/lib` or contains `/lib/gcc`, is skipped
by the builder loop together with its entire subtree: processing the child
list with that child present gives exactly the state of processing the list
without it, so nothing below it is registered into FunctionSet and no call
below it contributes an edge. -/
theorem system_header_child_skipped (c : Ast) (cs : List Ast) (cf : String)
    (st : BuildState)
    (h : c.file = none
      ∨ ∃ name, c.file = some name
          ∧ (startsWithL name.data "/usr/include".data = true
            ∨ startsWithL name.data "/usr/lib".data = true
            ∨ containsL name.data "/lib/gcc".data = true)) :
    build_children (c :: cs) cf st = build_children cs cf st := by
  have hstep : build_children (c :: cs) cf st =
      if is_system_header c then build_children cs cf st
      else build_children cs cf (build_call_graph c cf
        (if cf ≠ "" ∧ c.kind = CursorKind.callExpr then recordEdges st cf c else st)) := rfl
  rw [hstep, if_pos (is_system_header_of_filtered h)]

/-- Witness for C10: a call-expression child located in `/usr/include`
contributes neither an edge nor a registration. -/
theorem system_header_child_skipped_witness :
    build_children [Ast.mk CursorKind.callExpr "evil" "" "" (some "/usr/include/stdio.h") []]
      "f" ⟨[], []⟩ = ⟨[], []⟩ := by
  have h := system_header_child_skipped
    (Ast.mk CursorKind.callExpr "evil" "" "" (some "/usr/include/stdio.h") []) [] "f"
    ⟨[], []⟩ (Or.inr ⟨"/usr/include/stdio.h", rfl, Or.inl (by decide)⟩)
  exact h.trans rfl

lemma regFunc_of_mem {st : BuildState} {cf : String} (h : cf ∈ st.all_functions) :
    regFunc st cf = st := by
  unfold regFunc
  rw [addFunc_of_mem h]

lemma build_nondecl (k : CursorKind) (s p t : String) (f : Option String) (cs : List Ast)
    (cf : String) (st : BuildState) (hk1 : k ≠ CursorKind.functionDecl)
    (hk2 : k ≠ CursorKind.cxxMethod) (hcf : cf ≠ "") (hmem : cf ∈ st.all_functions) :
    build_call_graph (Ast.mk k s p t f cs) cf st = build_children cs cf st := by
  have hstep : build_call_graph (Ast.mk k s p t f cs) cf st =
      build_children cs
        (if k = CursorKind.cxxMethod then p ++ "::" ++ s
         else if k = CursorKind.functionDecl then s else cf)
        (if (if k = CursorKind.cxxMethod then p ++ "::" ++ s
             else if k = CursorKind.functionDecl then s else cf) ≠ "" then
          regFunc st (if k = CursorKind.cxxMethod then p ++ "::" ++ s
            else if k = CursorKind.functionDecl then s else cf)
         else st) := rfl
  rw [hstep, if_neg hk2, if_neg hk1, if_pos hcf, regFunc_of_mem hmem]

lemma build_leaf_other (x : Ast) (cf : String) (st : BuildState)
    (hx : x.kind = CursorKind.other) (hc : x.children.length = 0)
    (hcf : cf ≠ "") (hmem : cf ∈ st.all_functions) :
    build_call_graph x cf st = st := by
  cases x with
  | mk k s p t f cs =>
    have hk : k = CursorKind.other := hx
    have hcs : cs = [] := List.length_eq_zero.mp hc
    subst hk
    subst hcs
    rw [build_nondecl CursorKind.other s p t f [] cf st (by decide) (by decide) hcf hmem]
    rfl

lemma build_children_leaves (xs : List Ast) (cf : String) (st : BuildState)
    (hxs : ∀ x ∈ xs, x.kind = CursorKind.other ∧ x.children.length = 0)
    (hcf : cf ≠ "") (hmem : cf ∈ st.all_functions) :
    build_children xs cf st = st := by
  induction xs with
  | nil => rfl
  | cons x rest ih =>
    have hx := hxs x (List.mem_cons_self x rest)
    have hstep : build_children (x :: rest) cf st =
        if is_system_header x then build_children rest cf st
        else build_children rest cf (build_call_graph x cf
          (if cf ≠ "" ∧ x.kind = CursorKind.callExpr then recordEdges st cf x else st)) := rfl
    rw [hstep]
    by_cases hsys : is_system_header x = true
    · rw [if_pos hsys]
      exact ih (fun y hy => hxs y (List.mem_cons_of_mem x hy))
    · rw [if_neg hsys]
      have hkc : ¬(cf ≠ "" ∧ x.kind = CursorKind.callExpr) := by
        rintro ⟨-, hk⟩
        exact absurd (hx.1.symm.trans hk) (by decide)
      rw [if_neg hkc, build_leaf_other x cf st hx.1 hx.2 hcf hmem]
      exact ih (fun y hy => hxs y (List.mem_cons_of_mem x hy))

lemma build_gc_inert (gc : Ast) (cf : String) (st : BuildState)
    (hgc : (gc.kind = CursorKind.memberRefExpr ∨ gc.kind = CursorKind.other)
      ∧ ∀ x ∈ gc.children, x.kind = CursorKind.other ∧ x.children.length = 0)
    (hcf : cf ≠ "") (hmem : cf ∈ st.all_functions) :
    build_call_graph gc cf st = st := by
  cases gc with
  | mk k s p t f cs =>
    have h1 : k = CursorKind.memberRefExpr ∨ k = CursorKind.other := hgc.1
    have h2 : ∀ x ∈ cs, x.kind = CursorKind.other ∧ x.children.length = 0 := hgc.2
    have hk1 : k ≠ CursorKind.functionDecl := by rcases h1 with rfl | rfl <;> decide
    have hk2 : k ≠ CursorKind.cxxMethod := by rcases h1 with rfl | rfl <;> decide
    rw [build_nondecl k s p t f cs cf st hk1 hk2 hcf hmem]
    exact build_children_leaves cs cf st h2 hcf hmem

lemma build_children_inert (gcs : List Ast) (cf : String) (st : BuildState)
    (hshape : ∀ gc ∈ gcs, (gc.kind = CursorKind.memberRefExpr ∨ gc.kind = CursorKind.other)
      ∧ ∀ x ∈ gc.children, x.kind = CursorKind.other ∧ x.children.length = 0)
    (hcf : cf ≠ "") (hmem : cf ∈ st.all_functions) :
    build_children gcs cf st = st := by
  induction gcs with
  | nil => rfl
  | cons gc rest ih =>
    have hgc := hshape gc (List.mem_cons_self gc rest)
    have hstep : build_children (gc :: rest) cf st =
        if is_system_header gc then build_children rest cf st
        else build_children rest cf (build_call_graph gc cf
          (if cf ≠ "" ∧ gc.kind = CursorKind.callExpr then recordEdges st cf gc else st)) := rfl
    rw [hstep]
    by_cases hsys : is_system_header gc = true
    · rw [if_pos hsys]
      exact ih (fun y hy => hshape y (List.mem_cons_of_mem gc hy))
    · rw [if_neg hsys]
      have hkc : ¬(cf ≠ "" ∧ gc.kind = CursorKind.callExpr) := by
        rintro ⟨-, hk⟩
        rcases hgc.1 with h | h <;> exact absurd (h.symm.trans hk) (by decide)
      rw [if_neg hkc, build_gc_inert gc cf st hgc hcf hmem]
      exact ih (fun y hy => hshape y (List.mem_cons_of_mem gc hy))

lemma member_ref_edges_eq_find (gcs : List Ast) :
    member_ref_edges gcs =
      (gcs.find? (fun gc => decide (gc.kind = CursorKind.memberRefExpr))).map
        (fun gc => gc.children.map (fun cxx => cxx.typeSpelling ++ "::" ++ gc.spelling)) := by
  induction gcs with
  | nil => rfl
  | cons gc rest ih =>
    have hstep : member_ref_edges (gc :: rest) =
        if gc.kind = CursorKind.memberRefExpr then
          some (gc.children.map (fun cxx => cxx.typeSpelling ++ "::" ++ gc.spelling))
        else member_ref_edges rest := rfl
    by_cases h : gc.kind = CursorKind.memberRefExpr
    · rw [hstep, if_pos h, List.find?_cons_of_pos _ (by simp [h])]
      rfl
    · rw [hstep, if_neg h, ih, List.find?_cons_of_neg _ (by simp [h])]

lemma edgesOf_foldl_appendEdge :
    ∀ (es : List String) (g : Graph) (f : String),
      edgesOf (es.foldl (fun gr e => appendEdge gr f (some e)) g) f
        = edgesOf g f ++ es.map some := by
  intro es
  induction es with
  | nil => intro g f; simp
  | cons e rest ih =>
    intro g f
    rw [List.foldl_cons, ih]
    have h1 : edgesOf (appendEdge g f (some e)) f = edgesOf g f ++ [some e] := by
      unfold edgesOf
      rw [lookup_appendEdge, if_pos rfl]
      simp [edgesOf]
    rw [h1]
    simp [List.append_assoc]

/-- C3 counterexample: a call-expression node whose first member-reference
child has two children makes the builder record two edges for that single
call expression (one per child of the member reference), refuting "never
more than one edge per call-expression node". -/
theorem multi_member_call_two_edges :
    edgesOf (build_call_graph multi_member_ast "" ⟨[], []⟩).call_graph "f"
      = [some "T1::m", some "T2::m"]
    ∧ (edgesOf (build_call_graph multi_member_ast "" ⟨[], []⟩).call_graph "f").length ≠ 1 :=
  ⟨by decide, by decide⟩

/-- C3 amended: inside a tracked context, each call-expression child
contributes edges as follows — when a member-reference child exists, one
edge `Type::member` per child of the first such member-reference (so exactly
one edge only when it has exactly one child, zero when it has none, several
when it has several; later member-references are ignored); otherwise exactly
one edge to the call expression's spelling. -/
theorem call_expr_edges_per_member_child (fname csp : String) (gcs : List Ast)
    (hf : fname ≠ "")
    (hshape : ∀ gc ∈ gcs,
      (gc.kind = CursorKind.memberRefExpr ∨ gc.kind = CursorKind.other)
      ∧ ∀ x ∈ gc.children, x.kind = CursorKind.other ∧ x.children.length = 0) :
    edgesOf (build_call_graph
        (Ast.mk CursorKind.functionDecl fname "" "" (some "a.cpp")
          [Ast.mk CursorKind.callExpr csp "" "" (some "a.cpp") gcs]) "" ⟨[], []⟩).call_graph
      fname
    = match gcs.find? (fun gc => decide (gc.kind = CursorKind.memberRefExpr)) with
      | some gc => gc.children.map (fun cxx => some (cxx.typeSpelling ++ "::" ++ gc.spelling))
      | none => [some csp] := by
  have h1 : build_call_graph
      (Ast.mk CursorKind.functionDecl fname "" "" (some "a.cpp")
        [Ast.mk CursorKind.callExpr csp "" "" (some "a.cpp") gcs]) "" ⟨[], []⟩
      = build_children [Ast.mk CursorKind.callExpr csp "" "" (some "a.cpp") gcs] fname
          (if fname ≠ "" then regFunc ⟨[], []⟩ fname else ⟨[], []⟩) := rfl
  rw [h1, if_pos hf]
  have h2 : regFunc ⟨[], []⟩ fname = ⟨[], [fname]⟩ := by
    simp [regFunc, addFunc]
  rw [h2]
  have h3 : build_children [Ast.mk CursorKind.callExpr csp "" "" (some "a.cpp") gcs] fname
      ⟨[], [fname]⟩
      = build_children [] fname (build_call_graph
          (Ast.mk CursorKind.callExpr csp "" "" (some "a.cpp") gcs) fname
          (if fname ≠ "" ∧ (Ast.mk CursorKind.callExpr csp "" "" (some "a.cpp") gcs).kind
              = CursorKind.callExpr
           then recordEdges ⟨[], [fname]⟩ fname
             (Ast.mk CursorKind.callExpr csp "" "" (some "a.cpp") gcs)
           else ⟨[], [fname]⟩)) := rfl
  rw [h3, if_pos ⟨hf, rfl⟩]
  have h4 : recordEdges ⟨[], [fname]⟩ fname
      (Ast.mk CursorKind.callExpr csp "" "" (some "a.cpp") gcs)
      = ⟨(call_expr_edges (Ast.mk CursorKind.callExpr csp "" "" (some "a.cpp") gcs)).foldl
          (fun g e => appendEdge g fname (some e)) [], [fname]⟩ := rfl
  rw [h4]
  rw [build_nondecl CursorKind.callExpr csp "" "" (some "a.cpp") gcs fname _
    (by decide) (by decide) hf (by simp)]
  rw [build_children_inert gcs fname _ hshape hf (by simp)]
  have h5 : call_expr_edges (Ast.mk CursorKind.callExpr csp "" "" (some "a.cpp") gcs)
      = match gcs.find? (fun gc => decide (gc.kind = CursorKind.memberRefExpr)) with
        | some gc => gc.children.map (fun cxx => cxx.typeSpelling ++ "::" ++ gc.spelling)
        | none => [csp] := by
    unfold call_expr_edges
    rw [show (Ast.mk CursorKind.callExpr csp "" "" (some "a.cpp") gcs).children = gcs from rfl,
      member_ref_edges_eq_find]
    cases gcs.find? (fun gc => decide (gc.kind = CursorKind.memberRefExpr)) with
    | none => rfl
    | some gc => rfl
  have h6 : (build_children [] fname
      (⟨(call_expr_edges (Ast.mk CursorKind.callExpr csp "" "" (some "a.cpp") gcs)).foldl
          (fun g e => appendEdge g fname (some e)) [], [fname]⟩ : BuildState)).call_graph
      = (call_expr_edges (Ast.mk CursorKind.callExpr csp "" "" (some "a.cpp") gcs)).foldl
          (fun g e => appendEdge g fname (some e)) [] := rfl
  rw [h6, edgesOf_foldl_appendEdge, h5]
  cases gcs.find? (fun gc => decide (gc.kind = CursorKind.memberRefExpr)) with
  | none => simp [edgesOf, lookupG]
  | some gc => simp [edgesOf, lookupG, List.map_map, Function.comp]

/-- Witness for the amended C3: the typical member call, whose
member-reference has exactly one child of static type `Widget`, records the
single edge `Widget::m`. -/
theorem call_expr_edges_per_member_child_witness :
    edgesOf (build_call_graph
        (Ast.mk CursorKind.functionDecl "f" "" "" (some "a.cpp")
          [Ast.mk CursorKind.callExpr "g" "" "" (some "a.cpp")
            [Ast.mk CursorKind.memberRefExpr "m" "" "" (some "a.cpp")
              [Ast.mk CursorKind.other "w" "" "Widget" (some "a.cpp") []]]])
        "" ⟨[], []⟩).call_graph "f"
      = [some "Widget::m"] := by
  have h := call_expr_edges_per_member_child "f" "g"
    [Ast.mk CursorKind.memberRefExpr "m" "" "" (some "a.cpp")
      [Ast.mk CursorKind.other "w" "" "Widget" (some "a.cpp") []]]
    (by decide) (by decide)
  exact h.trans (by decide)

mutual
theorem build_funcs_mono : ∀ (node : Ast) (cf : String) (st : BuildState) (k : String),
    k ∈ st.all_functions → k ∈ (build_call_graph node cf st).all_functions
  | .mk kk s p t f cs, cf, st, k, h => by
    have hstep : build_call_graph (Ast.mk kk s p t f cs) cf st =
        build_children cs
          (if kk = CursorKind.cxxMethod then p ++ "::" ++ s
           else if kk = CursorKind.functionDecl then s else cf)
          (if (if kk = CursorKind.cxxMethod then p ++ "::" ++ s
               else if kk = CursorKind.functionDecl then s else cf) ≠ "" then
            regFunc st (if kk = CursorKind.cxxMethod then p ++ "::" ++ s
              else if kk = CursorKind.functionDecl then s else cf)
           else st) := rfl
    rw [hstep]
    apply build_children_funcs_mono
    by_cases hcf : (if kk = CursorKind.cxxMethod then p ++ "::" ++ s
        else if kk = CursorKind.functionDecl then s else cf) ≠ ""
    · rw [if_pos hcf]
      exact mem_addFunc.mpr (Or.inl h)
    · rw [if_neg hcf]
      exact h

theorem build_children_funcs_mono : ∀ (cs : List Ast) (cf : String) (st : BuildState)
    (k : String), k ∈ st.all_functions → k ∈ (build_children cs cf st).all_functions
  | [], _, _, _, h => h
  | c :: rest, cf, st, k, h => by
    have hstep : build_children (c :: rest) cf st =
        if is_system_header c then build_children rest cf st
        else build_children rest cf (build_call_graph c cf
          (if cf ≠ "" ∧ c.kind = CursorKind.callExpr then recordEdges st cf c else st)) := rfl
    rw [hstep]
    by_cases hsys : is_system_header c = true
    · rw [if_pos hsys]
      exact build_children_funcs_mono rest cf st k h
    · rw [if_neg hsys]
      apply build_children_funcs_mono
      apply build_funcs_mono
      by_cases hkc : cf ≠ "" ∧ c.kind = CursorKind.callExpr
      · rw [if_pos hkc]
        exact h
      · rw [if_neg hkc]
        exact h
end

mutual
theorem build_eq_spec : ∀ (node : Ast) (cf : String) (st : BuildState),
    (cf ≠ "" → cf ∈ st.all_functions) →
    build_call_graph node cf st = build_call_graph_spec node cf st
  | .mk kk s p t f cs, cf, st, hinv => by
    cases kk with
    | cxxMethod =>
      have h1 : build_call_graph (Ast.mk CursorKind.cxxMethod s p t f cs) cf st =
          build_children cs (p ++ "::" ++ s)
            (if p ++ "::" ++ s ≠ "" then regFunc st (p ++ "::" ++ s) else st) := rfl
      have h2 : build_call_graph_spec (Ast.mk CursorKind.cxxMethod s p t f cs) cf st =
          build_children_spec cs (p ++ "::" ++ s)
            (if p ++ "::" ++ s ≠ "" then regFunc st (p ++ "::" ++ s) else st) := rfl
      rw [h1, h2]
      apply build_children_eq_spec
      intro hne
      rw [if_pos hne]
      exact mem_addFunc.mpr (Or.inr rfl)
    | functionDecl =>
      have h1 : build_call_graph (Ast.mk CursorKind.functionDecl s p t f cs) cf st =
          build_children cs s (if s ≠ "" then regFunc st s else st) := rfl
      have h2 : build_call_graph_spec (Ast.mk CursorKind.functionDecl s p t f cs) cf st =
          build_children_spec cs s (if s ≠ "" then regFunc st s else st) := rfl
      rw [h1, h2]
      apply build_children_eq_spec
      intro hne
      rw [if_pos hne]
      exact mem_addFunc.mpr (Or.inr rfl)
    | callExpr =>
      have h1 : build_call_graph (Ast.mk CursorKind.callExpr s p t f cs) cf st =
          build_children cs cf (if cf ≠ "" then regFunc st cf else st) := rfl
      have h2 : build_call_graph_spec (Ast.mk CursorKind.callExpr s p t f cs) cf st =
          build_children_spec cs cf st := rfl
      have hst1 : (if cf ≠ "" then regFunc st cf else st) = st := by
        by_cases hcf : cf ≠ ""
        · rw [if_pos hcf, regFunc_of_mem (hinv hcf)]
        · rw [if_neg hcf]
      rw [h1, h2, hst1]
      exact build_children_eq_spec cs cf st hinv
    | memberRefExpr =>
      have h1 : build_call_graph (Ast.mk CursorKind.memberRefExpr s p t f cs) cf st =
          build_children cs cf (if cf ≠ "" then regFunc st cf else st) := rfl
      have h2 : build_call_graph_spec (Ast.mk CursorKind.memberRefExpr s p t f cs) cf st =
          build_children_spec cs cf st := rfl
      have hst1 : (if cf ≠ "" then regFunc st cf else st) = st := by
        by_cases hcf : cf ≠ ""
        · rw [if_pos hcf, regFunc_of_mem (hinv hcf)]
        · rw [if_neg hcf]
      rw [h1, h2, hst1]
      exact build_children_eq_spec cs cf st hinv
    | other =>
      have h1 : build_call_graph (Ast.mk CursorKind.other s p t f cs) cf st =
          build_children cs cf (if cf ≠ "" then regFunc st cf else st) := rfl
      have h2 : build_call_graph_spec (Ast.mk CursorKind.other s p t f cs) cf st =
          build_children_spec cs cf st := rfl
      have hst1 : (if cf ≠ "" then regFunc st cf else st) = st := by
        by_cases hcf : cf ≠ ""
        · rw [if_pos hcf, regFunc_of_mem (hinv hcf)]
        · rw [if_neg hcf]
      rw [h1, h2, hst1]
      exact build_children_eq_spec cs cf st hinv

theorem build_children_eq_spec : ∀ (cs : List Ast) (cf : String) (st : BuildState),
    (cf ≠ "" → cf ∈ st.all_functions) →
    build_children cs cf st = build_children_spec cs cf st
  | [], _, _, _ => rfl
  | c :: rest, cf, st, hinv => by
    have h1 : build_children (c :: rest) cf st =
        if is_system_header c then build_children rest cf st
        else build_children rest cf (build_call_graph c cf
          (if cf ≠ "" ∧ c.kind = CursorKind.callExpr then recordEdges st cf c else st)) := rfl
    have h2 : build_children_spec (c :: rest) cf st =
        if is_system_header c then build_children_spec rest cf st
        else build_children_spec rest cf (build_call_graph_spec c cf
          (if cf ≠ "" ∧ c.kind = CursorKind.callExpr then recordEdges st cf c else st)) := rfl
    rw [h1, h2]
    by_cases hsys : is_system_header c = true
    · rw [if_pos hsys, if_pos hsys]
      exact build_children_eq_spec rest cf st hinv
    · rw [if_neg hsys, if_neg hsys]
      have hinv1 : cf ≠ "" → cf ∈ (if cf ≠ "" ∧ c.kind = CursorKind.callExpr
          then recordEdges st cf c else st).all_functions := by
        intro hne
        by_cases hkc : cf ≠ "" ∧ c.kind = CursorKind.callExpr
        · rw [if_pos hkc]
          exact hinv hne
        · rw [if_neg hkc]
          exact hinv hne
      have hx := build_eq_spec c cf _ hinv1
      have hinv2 : cf ≠ "" → cf ∈ (build_call_graph c cf
          (if cf ≠ "" ∧ c.kind = CursorKind.callExpr then recordEdges st cf c
            else st)).all_functions :=
        fun hne => build_funcs_mono c cf _ cf (hinv1 hne)
      calc build_children rest cf (build_call_graph c cf
            (if cf ≠ "" ∧ c.kind = CursorKind.callExpr then recordEdges st cf c else st))
          = build_children_spec rest cf (build_call_graph c cf
              (if cf ≠ "" ∧ c.kind = CursorKind.callExpr then recordEdges st cf c else st)) :=
        build_children_eq_spec rest cf _ hinv2
        _ = build_children_spec rest cf (build_call_graph_spec c cf
              (if cf ≠ "" ∧ c.kind = CursorKind.callExpr then recordEdges st cf c
                else st)) := by rw [hx]
end

/-- C6: the source walk behaves exactly as the exclusive kind dispatch of
the specification: starting from the root with the empty (falsy) context,
the always-truthy outer guard of line 111 is harmless because the inner
`if/elif/else` dispatches exclusively on the node kind — a method
declaration sets the context to `SemanticParent::Spelling`, a function
declaration to the bare spelling, any other kind leaves it unchanged, and
exactly the non-empty context values set at declaration nodes end up
registered in FunctionSet.  The call graph and function set produced by the
source equal those of the exclusive-dispatch rendition on every AST. -/
theorem context_dispatch_matches_spec (node : Ast) :
    build_call_graph node "" ⟨[], []⟩ = build_call_graph_spec node "" ⟨[], []⟩ :=
  build_eq_spec node "" ⟨[], []⟩ (fun hne => absurd rfl hne)
